import Mathlib

/-!
Shallow embedding of `src/index.ts` of xstate-ts-to-mermaid: the traversal
and label-formatting engine converting an XState v5 machine (presented as the
directed-graph tree produced by the external `toDirectedGraph` collaborator)
into Mermaid `stateDiagram-v2` text, in a flat mode (`toMermaid`) and a nested
mode (`toMermaidNested`).

Strings are modelled as Lean `String` (sequences of characters); JavaScript
truthiness of strings is modelled as non-emptiness, of optional values as
`Option.isSome`, and the `Set` objects used for deduplication as lists
queried by membership.  Each `lines.push(...)` of the source is modelled as
appending a structured `MLine` whose `render` is exactly the pushed template
string; the returned text is the rendered lines joined with `"\n"`, exactly
as `lines.join("\n")` in the source.
-/

/-- Guard object on a transition: the code only reads `guard.type`. -/
structure Guard where
  type : String
deriving DecidableEq

/-- Action object: the code only reads `action.type`. -/
structure ActionObj where
  type : String
deriving DecidableEq

/-- Invoke descriptor: the code reads `src` and `id`. -/
structure InvokeObj where
  src : String
  id : String
deriving DecidableEq

/-- Transition data as read by the code: `eventType`, optional `guard`,
optional `actions` array. -/
structure Transition where
  eventType : String
  guard : Option Guard
  actions : Option (List ActionObj)
deriving DecidableEq

/-- Arbitrary `meta` object of a state node.  The code reads only the
`invariants` key (`meta?.invariants`); all other keys are carried in
`other` and are never read by any function of `src/index.ts`. -/
structure MetaData where
  invariants : Option (List String)
  other : List (String × String)
deriving DecidableEq

/-- Renderable fields of an XState state node, as the code accesses them
through `node.stateNode`.  `tags` and `exit` are declared in the input data
model but no function of `src/index.ts` ever reads them. -/
structure StateNodeData where
  description : Option String := none
  tags : Option (List String) := none
  meta : Option MetaData := none
  entry : Option (List ActionObj) := none
  exit : Option (List ActionObj) := none
  invoke : Option (List InvokeObj) := none
  initial : Option String := none
deriving DecidableEq

/-- Directed-graph edge.  The source only ever reads `edge.source.id`,
`edge.target.id` and `edge.transition`, so the two endpoint nodes are
modelled by their id strings. -/
structure Edge where
  sourceId : String
  targetId : String
  transition : Transition
deriving DecidableEq

/-- Node of the directed graph returned by the external `toDirectedGraph`
collaborator: an id (dot-qualified path), the underlying state node's
renderable fields, the edges scoped to this node, and the child nodes. -/
inductive DirectedGraphNode where
  | mk (id : String) (stateNode : StateNodeData) (edges : List Edge)
       (children : List DirectedGraphNode)

/-- Identity path of a node. -/
def DirectedGraphNode.id : DirectedGraphNode → String
  | .mk i _ _ _ => i

/-- Renderable fields of a node. -/
def DirectedGraphNode.stateNode : DirectedGraphNode → StateNodeData
  | .mk _ s _ _ => s

/-- Edges scoped to a node. -/
def DirectedGraphNode.edges : DirectedGraphNode → List Edge
  | .mk _ _ es _ => es

/-- Children of a node. -/
def DirectedGraphNode.children : DirectedGraphNode → List DirectedGraphNode
  | .mk _ _ _ cs => cs

/-- A machine as the two entry points consume it: its `config.initial`
(when it is a string) and the directed graph built from it by the external
collaborator. -/
structure Machine where
  config_initial : Option String
  digraph : DirectedGraphNode

/-- MermaidOptions of `src/index.ts`; `none` models an absent field. -/
structure MermaidOptions where
  title : Option String := none
  maxDescriptionLength : Option Nat := none
  includeGuards : Option Bool := none
  includeActions : Option Bool := none
  includeEntryActions : Option Bool := none
  includeInvokes : Option Bool := none
  includeInvariants : Option Bool := none

/-- Options slice passed to `formatTransitionLabel`. -/
structure LabelOptions where
  includeGuards : Option Bool := none
  includeActions : Option Bool := none

/-- Split of a character list at every `'.'`, mirroring JavaScript
`id.split(".")`: `"a..b"` gives `["a", "", "b"]` and `""` gives `[""]`. -/
def splitDot : List Char → List (List Char)
  | [] => [[]]
  | c :: t =>
    if c = '.' then [] :: splitDot t
    else
      match splitDot t with
      | [] => [[c]]
      | g :: gs => (c :: g) :: gs

/-- Last element of a non-empty list of segments, with a default that the
callers never reach (`split` never returns an empty array). -/
def lastD : List (List Char) → List Char → List Char
  | [], d => d
  | [x], _ => x
  | _ :: y :: t, d => lastD (y :: t) d

/-- getStateName of `src/index.ts` (lines 35-38): last dot-separated segment
of a fully qualified id, `parts[parts.length - 1]` of `id.split(".")`. -/
def getStateName (id : String) : String :=
  (lastD (splitDot id.toList) id.toList).asString

/-- Character list of the reserved delay-event prefix `"xstate.after."`. -/
def afterPrefix : List Char := "xstate.after.".toList

/-- Match of the regular expression `xstate\.after\.(\d+)\.` at the start of
`l`, returning the captured digits.  A greedy `\d+` followed by a literal dot
matches here exactly when the maximal digit run after the literal prefix is
non-empty and is followed by a dot: backtracking the greedy run can only stop
in front of another digit, never in front of the required dot. -/
def matchAfterAt (l : List Char) : Option (List Char) :=
  if afterPrefix.isPrefixOf l then
    let rest := l.drop afterPrefix.length
    let ds := rest.takeWhile Char.isDigit
    if ds ≠ [] ∧ (rest.dropWhile Char.isDigit).head? = some '.' then some ds
    else none
  else none

/-- Leftmost match of `xstate\.after\.(\d+)\.` in `l`, as JavaScript
`String.prototype.match` finds it: try each start position left to right. -/
def searchAfter : List Char → Option (List Char)
  | [] => none
  | c :: t =>
    match matchAfterAt (c :: t) with
    | some ds => some ds
    | none => searchAfter t

/-- formatEventName of `src/index.ts` (lines 45-53): if the event starts with
`"xstate.after."` and the (unanchored) regex `xstate\.after\.(\d+)\.` finds a
match, render `after <digits>ms`; otherwise return the event unchanged. -/
def formatEventName (event : String) : String :=
  if afterPrefix.isPrefixOf event.toList then
    match searchAfter event.toList with
    | some ds => "after " ++ ds.asString ++ "ms"
    | none => event
  else event

/-- Replacement for one character under `text.replace(/:/g, ' -')`. -/
def escapeChar (c : Char) : List Char :=
  if c = ':' then [' ', '-'] else [c]

/-- escapeMermaidText of `src/index.ts` (lines 59-61): replace every colon by
`" -"` (a global single-character replacement, written here per character). -/
def escapeMermaidText (text : String) : String :=
  ⟨text.toList.flatMap escapeChar⟩

/-- getDescription of `src/index.ts` (lines 66-70): `desc ?
escapeMermaidText(desc) : undefined`; an empty string is falsy in JavaScript
and yields `undefined`. -/
def getDescription (node : DirectedGraphNode) : Option String :=
  match node.stateNode.description with
  | some desc => if desc = "" then none else some (escapeMermaidText desc)
  | none => none

/-- Test for the reserved internal action namespace:
`t.startsWith('xstate.')`. -/
def startsWithXstate (t : String) : Bool :=
  "xstate.".toList.isPrefixOf t.toList

/-- Filter applied to action identifiers: `t && !t.startsWith('xstate.')`. -/
def actionKeep (t : String) : Bool :=
  (t ≠ "") && !(startsWithXstate t)

/-- getEntryActions of `src/index.ts` (lines 75-79): entry action type names,
dropping empty ones and those with the reserved `xstate.` prefix; `|| []`
yields `[]` when `entry` is absent. -/
def getEntryActions (node : DirectedGraphNode) : List String :=
  match node.stateNode.entry with
  | some entry => (entry.map (·.type)).filter actionKeep
  | none => []

/-- getInvokes of `src/index.ts` (lines 84-88): `invoke || []`. -/
def getInvokes (node : DirectedGraphNode) : List InvokeObj :=
  match node.stateNode.invoke with
  | some invoke => invoke
  | none => []

/-- getInvariants of `src/index.ts` (lines 93-97): `meta?.invariants || []`.
Only the `invariants` key of `meta` is ever read. -/
def getInvariants (node : DirectedGraphNode) : List String :=
  match node.stateNode.meta with
  | some m => m.invariants.getD []
  | none => []

/-- Action names surfacing on a transition label: `transition.actions`
mapped to `type` and filtered like entry actions (lines 116-118).  When
`actions` is absent this is `[]`, matching the guarding
`transition.actions && transition.actions.length > 0` check. -/
def renderedActionNames (t : Transition) : List String :=
  ((t.actions.getD []).map (·.type)).filter actionKeep

/-- formatTransitionLabel of `src/index.ts` (lines 103-125): the formatted
event name, then ` IF <guard>` when guards are enabled and the guard type is
truthy, then `<br/>⚡ <actions joined by ", ">` when actions are enabled and
any non-reserved action name remains. -/
def formatTransitionLabel (t : Transition) (options : LabelOptions) : String :=
  let includeGuards := options.includeGuards.getD true
  let includeActions := options.includeActions.getD true
  let label := formatEventName t.eventType
  let label :=
    if includeGuards then
      match t.guard with
      | some g => if g.type = "" then label else label ++ " IF " ++ g.type
      | none => label
    else label
  if includeActions ∧ renderedActionNames t ≠ [] then
    label ++ "<br/>⚡ " ++ String.intercalate ", " (renderedActionNames t)
  else label

/-- Lines assembled by buildStateLabel of `src/index.ts` (lines 143-177)
before joining: bold name header, description, `🔒`-prefixed invariants,
entry-actions section, invoke section. -/
def assembleStateLines (name : String) (desc : Option String)
    (invariants : List String) (entry : List String)
    (invokes : List InvokeObj) : List String :=
  ["<b>" ++ name ++ "</b>"]
    ++ (match desc with
        | some d => if d = "" then [] else [d]
        | none => [])
    ++ invariants.map (fun inv => "🔒 " ++ inv)
    ++ (if entry ≠ [] then
          ["───────────", "<b><i>Entry actions</i></b>"]
            ++ entry.map (fun action => "⚡ " ++ action)
        else [])
    ++ (if invokes ≠ [] then
          ["───────────", "<b><i>Invoke</i></b>"]
            ++ invokes.flatMap (fun inv => ["◉ " ++ inv.src, "Actor ID - " ++ inv.id])
        else [])

/-- Assembled label text before truncation: the lines joined by `<br/>`. -/
def assembledStateText (name : String) (desc : Option String)
    (invariants : List String) (entry : List String)
    (invokes : List InvokeObj) : String :=
  String.intercalate "<br/>" (assembleStateLines name desc invariants entry invokes)

/-- First `n` characters of a string: `text.substring(0, n)` for
`n ≤ text.length`. -/
def takeChars (s : String) (n : Nat) : String :=
  ⟨s.toList.take n⟩

/-- buildStateLabel of `src/index.ts` (lines 135-185): the assembled text,
truncated to `maxLen` characters plus `"..."` when `maxLen > 0` and the text
is longer than `maxLen`. -/
def buildStateLabel (name : String) (desc : Option String)
    (invariants : List String) (entry : List String)
    (invokes : List InvokeObj) (maxLen : Nat) : String :=
  let text := assembledStateText name desc invariants entry invokes
  if 0 < maxLen ∧ maxLen < text.length then (takeChars text maxLen) ++ "..." else text

/-- Structured form of one pushed output line.  `render` below produces
exactly the template string pushed by the source at the corresponding
`lines.push` site, so joining rendered lines with `"\n"` gives the exact
returned text. -/
inductive MLine where
  | raw (s : String)
  | initialMark (pad target : String)
  | stateLabel (pad name label : String)
  | edge (pad : String) (e : Edge) (label : String)
  | containerOpen (pad name : String)
  | containerClose (pad : String)
  | note (pad name text : String)
deriving DecidableEq

/-- Rendered text of a line, one case per `lines.push` template of
`src/index.ts`. -/
def MLine.render : MLine → String
  | .raw s => s
  | .initialMark pad target => pad ++ "[*] --> " ++ target
  | .stateLabel pad name label => pad ++ name ++ ": " ++ label
  | .edge pad e label =>
      pad ++ getStateName e.sourceId ++ " --> " ++ getStateName e.targetId ++ ": " ++ label
  | .containerOpen pad name => pad ++ "state " ++ name ++ " \x7b"
  | .containerClose pad => pad ++ "\x7d"
  | .note pad name text => pad ++ "note right of " ++ name ++ ": " ++ text

/-- Flat-mode dedup key (line 238): `` `${sourceName}:${targetName}:${t.eventType}` ``. -/
def edgeKeyFlat (e : Edge) : String :=
  getStateName e.sourceId ++ ":" ++ getStateName e.targetId ++ ":" ++ e.transition.eventType

/-- Nested-mode dedup key (line 312): `` `${edge.source.id}->${edge.target.id}:${t.eventType}` ``. -/
def edgeKeyNested (e : Edge) : String :=
  e.sourceId ++ "->" ++ e.targetId ++ ":" ++ e.transition.eventType

/-- Edge line as pushed at lines 241, 256, 317 and 354: the arrow line with
the formatted transition label. -/
def edgeLineAt (lopts : LabelOptions) (pad : String) (e : Edge) : MLine :=
  .edge pad e (formatTransitionLabel e.transition lopts)

/-- Per-call configuration of the flat walker, resolved from the options
once per call (lines 198-213). -/
structure FlatCfg where
  labelOptions : LabelOptions
  includeEntry : Bool
  includeInvoke : Bool
  includeInvariants : Bool
  maxLen : Nat

/-- Configuration resolution of `toMermaid`/`toMermaidNested`: `?? true` for
the include flags and `?? 0` for the length limit. -/
def flatCfgOf (o : MermaidOptions) : FlatCfg :=
  { labelOptions := { includeGuards := o.includeGuards, includeActions := o.includeActions }
    includeEntry := o.includeEntryActions.getD true
    includeInvoke := o.includeInvokes.getD true
    includeInvariants := o.includeInvariants.getD true
    maxLen := o.maxDescriptionLength.getD 0 }

/-- Short name of a node. -/
def shortNameOf (n : DirectedGraphNode) : String :=
  getStateName n.id

/-- Text after the colon of a node's state-label line (lines 216-231):
`buildStateLabel` when any enabled field is present, else the bare name. -/
def labelTextFor (cfg : FlatCfg) (node : DirectedGraphNode) : String :=
  let name := shortNameOf node
  let desc := getDescription node
  let entry := if cfg.includeEntry then getEntryActions node else []
  let invokes := if cfg.includeInvoke then getInvokes node else []
  let invariants := if cfg.includeInvariants then getInvariants node else []
  if desc.isSome || !invariants.isEmpty || !entry.isEmpty || !invokes.isEmpty then
    buildStateLabel name desc invariants entry invokes cfg.maxLen
  else name

/-- State-label line emitted for a node by the flat walker. -/
def flatLabelLine (cfg : FlatCfg) (node : DirectedGraphNode) : MLine :=
  .stateLabel "    " (shortNameOf node) (labelTextFor cfg node)

/-- Mutable state of one `toMermaid` call: the pushed lines and the two
dedup sets (`Set` objects modelled as lists queried by membership). -/
structure FlatState where
  lines : List MLine
  seenEdges : List String
  seenStates : List String

/-- Edge emission of the flat walker (lines 234-243 and 249-258): push the
arrow line unless the flat key is already in `seenEdges`. -/
def emitEdgeFlat (lopts : LabelOptions) (pad : String) (st : FlatState) (e : Edge) : FlatState :=
  let key := edgeKeyFlat e
  if st.seenEdges.contains key then st
  else { st with seenEdges := key :: st.seenEdges,
                 lines := st.lines ++ [edgeLineAt lopts pad e] }

mutual

/-- collectAll of `src/index.ts` (lines 215-247): emit the node's label once
per unseen short name, then its edges, then recurse into its children. -/
def collectAll (cfg : FlatCfg) : DirectedGraphNode → FlatState → FlatState
  | n@(.mk _ _ es cs), st =>
    collectAllList cfg cs
      (es.foldl (emitEdgeFlat cfg.labelOptions "    ")
        (if st.seenStates.contains (shortNameOf n) then st
         else { st with seenStates := shortNameOf n :: st.seenStates,
                        lines := st.lines ++ [flatLabelLine cfg n] }))

/-- Sequential `collectAll` over a child list (line 244-246). -/
def collectAllList (cfg : FlatCfg) : List DirectedGraphNode → FlatState → FlatState
  | [], st => st
  | n :: rest, st => collectAllList cfg rest (collectAll cfg n st)

end

/-- Header lines shared by both entry points: the diagram kind, the optional
title comment (lines 201-204 / 283-286) and the machine-level initial marker
(lines 206-209 / 338-341); a title or initial that is absent or an empty
string (falsy) emits nothing. -/
def headerLines (m : Machine) (o : MermaidOptions) : List MLine :=
  [MLine.raw "stateDiagram-v2"]
    ++ (match o.title with
        | some t => if t = "" then [] else [MLine.raw ("    %% " ++ t)]
        | none => [])
    ++ (match m.config_initial with
        | some i => if i = "" then [] else [MLine.initialMark "    " i]
        | none => [])

/-- Full flat pipeline state of toMermaid of `src/index.ts` (lines 190-264):
header, top-level edges, then the recursive walk of the children. -/
def toMermaidState (m : Machine) (o : MermaidOptions) : FlatState :=
  collectAllList (flatCfgOf o) m.digraph.children
    (m.digraph.edges.foldl (emitEdgeFlat (flatCfgOf o).labelOptions "    ")
      ⟨headerLines m o, [], []⟩)

/-- toMermaid of `src/index.ts`: the rendered lines joined by newlines
(`lines.join("\n")`). -/
def toMermaid (m : Machine) (o : MermaidOptions) : String :=
  String.intercalate "\n" ((toMermaidState m o).lines.map MLine.render)

/-- Mutable state of one `toMermaidNested` call. -/
structure NestState where
  lines : List MLine
  processedEdges : List String

/-- Edge emission of the nested walker (lines 310-319 and 347-356): push the
arrow line unless the full-identity key is already in `processedEdges`. -/
def emitEdgeNested (lopts : LabelOptions) (pad : String) (st : NestState) (e : Edge) : NestState :=
  let key := edgeKeyNested e
  if st.processedEdges.contains key then st
  else { st with processedEdges := key :: st.processedEdges,
                 lines := st.lines ++ [edgeLineAt lopts pad e] }

/-- Indentation `"    ".repeat(indent)` of the nested walker. -/
def padOf (indent : Nat) : String :=
  String.join (List.replicate indent "    ")

mutual

/-- processNode of `src/index.ts` (lines 288-336): a compound node opens a
container with its own initial marker, children, locally-scoped edges and an
optional description note; a leaf emits its state-label line. -/
def processNode (cfg : FlatCfg) : DirectedGraphNode → Nat → NestState → NestState
  | n@(.mk _ sn es cs), indent, st =>
    let pad := padOf indent
    let name := shortNameOf n
    if cs.isEmpty then
      { st with lines := st.lines ++ [MLine.stateLabel pad name (labelTextFor cfg n)] }
    else
      let st := { st with lines := st.lines ++ [MLine.containerOpen pad name] }
      let st :=
        match sn.initial with
        | some i => if i = "" then st
                    else { st with lines := st.lines ++ [MLine.initialMark (pad ++ "    ") i] }
        | none => st
      let st := processNodeList cfg cs (indent + 1) st
      let st := es.foldl (emitEdgeNested cfg.labelOptions (pad ++ "    ")) st
      let st := { st with lines := st.lines ++ [MLine.containerClose pad] }
      match getDescription n with
      | some d =>
        let text := if 0 < cfg.maxLen ∧ cfg.maxLen < d.length
                    then (takeChars d cfg.maxLen) ++ "..." else d
        { st with lines := st.lines ++ [MLine.note pad name text] }
      | none => st

/-- Sequential `processNode` over a child list (lines 306-308 / 343-345). -/
def processNodeList (cfg : FlatCfg) : List DirectedGraphNode → Nat → NestState → NestState
  | [], _, st => st
  | n :: rest, indent, st => processNodeList cfg rest indent (processNode cfg n indent st)

end

/-- Full nested pipeline state of toMermaidNested of `src/index.ts`
(lines 270-358): header, the recursive walk of the children, then the
top-level edges. -/
def toMermaidNestedState (m : Machine) (o : MermaidOptions) : NestState :=
  m.digraph.edges.foldl (emitEdgeNested (flatCfgOf o).labelOptions "    ")
    (processNodeList (flatCfgOf o) m.digraph.children 1 ⟨headerLines m o, []⟩)

/-- toMermaidNested of `src/index.ts`: the rendered lines joined by
newlines. -/
def toMermaidNested (m : Machine) (o : MermaidOptions) : String :=
  String.intercalate "\n" ((toMermaidNestedState m o).lines.map MLine.render)

/-- Test for an edge (arrow) line. -/
def isEdgeLine : MLine → Bool
  | .edge _ _ _ => true
  | _ => false

/-- Edge lines of an output, in emission order. -/
def edgeLinesOf (ls : List MLine) : List MLine :=
  ls.filter isEdgeLine

/-- Edge carried by an edge line. -/
def edgeOfLine : MLine → Option Edge
  | .edge _ e _ => some e
  | _ => none

/-- Flat dedup keys of the edge lines of an output. -/
def edgeKeysOfLines (ls : List MLine) : List String :=
  ((edgeLinesOf ls).filterMap edgeOfLine).map edgeKeyFlat

/-- Test for a state-label line. -/
def isStateLabelLine : MLine → Bool
  | .stateLabel _ _ _ => true
  | _ => false

/-- State-label lines of an output, in emission order. -/
def stateLabelLinesOf (ls : List MLine) : List MLine :=
  ls.filter isStateLabelLine

/-- Short name carried by a state-label line. -/
def stateLabelNameOf : MLine → Option String
  | .stateLabel _ n _ => some n
  | _ => none

/-- Short names of the state-label lines of an output. -/
def stateLabelNamesOf (ls : List MLine) : List String :=
  (stateLabelLinesOf ls).filterMap stateLabelNameOf

/-- Test for container-block syntax (`state <name> {` or `}`). -/
def isContainerLine : MLine → Bool
  | .containerOpen _ _ => true
  | .containerClose _ => true
  | _ => false

/-- Rendered transition lines of an output: the text of its edge lines. -/
def transitionLines (ls : List MLine) : List String :=
  (edgeLinesOf ls).map MLine.render

/-- Reference run of a first-occurrence deduplicating loop: processing the
list left to right against a seen-key set, return the retained elements and
the final seen set.  Both walkers' edge loops and the flat walker's
state-label emission instantiate this shape. -/
def dedupRun {α : Type} (key : α → String) : List α → List String → List α × List String
  | [], seen => ([], seen)
  | a :: as, seen =>
    if seen.contains (key a) then dedupRun key as seen
    else
      let r := dedupRun key as (key a :: seen)
      (a :: r.1, r.2)

mutual

/-- Preorder listing of a subtree: the node, then its children's subtrees. -/
def preorderNode : DirectedGraphNode → List DirectedGraphNode
  | n@(.mk _ _ _ cs) => n :: preorderList cs

/-- Preorder listing of a forest. -/
def preorderList : List DirectedGraphNode → List DirectedGraphNode
  | [] => []
  | n :: rest => preorderNode n ++ preorderList rest

end

mutual

/-- Edges of a subtree: the node's own edges, then its children's. -/
def edgesNode : DirectedGraphNode → List Edge
  | .mk _ _ es cs => es ++ edgesList cs

/-- Edges of a forest. -/
def edgesList : List DirectedGraphNode → List Edge
  | [] => []
  | n :: rest => edgesNode n ++ edgesList rest

end

theorem contains_iff_mem (l : List String) (a : String) :
    l.contains a = true ↔ a ∈ l := by
  simp

theorem dedupRun_cons_mem {α : Type} {key : α → String} {a : α} {seen : List String}
    (as : List α) (h : key a ∈ seen) :
    dedupRun key (a :: as) seen = dedupRun key as seen := by
  rw [dedupRun, if_pos ((contains_iff_mem ..).mpr h)]

theorem dedupRun_cons_not_mem {α : Type} {key : α → String} {a : α} {seen : List String}
    (as : List α) (h : key a ∉ seen) :
    dedupRun key (a :: as) seen
      = (a :: (dedupRun key as (key a :: seen)).1, (dedupRun key as (key a :: seen)).2) := by
  rw [dedupRun, if_neg (fun hc => h ((contains_iff_mem ..).mp hc))]

theorem dedupRun_append {α : Type} (key : α → String) (l₁ l₂ : List α) (seen : List String) :
    dedupRun key (l₁ ++ l₂) seen
      = ((dedupRun key l₁ seen).1 ++ (dedupRun key l₂ (dedupRun key l₁ seen).2).1,
         (dedupRun key l₂ (dedupRun key l₁ seen).2).2) := by
  induction l₁ generalizing seen with
  | nil => simp [dedupRun]
  | cons a as ih =>
    rw [List.cons_append]
    by_cases h : key a ∈ seen
    · rw [dedupRun_cons_mem _ h, dedupRun_cons_mem _ h, ih]
    · rw [dedupRun_cons_not_mem _ h, dedupRun_cons_not_mem _ h, ih, List.cons_append]

theorem dedupRun_seen_mem {α : Type} (key : α → String) (l : List α) (seen : List String)
    (k : String) :
    k ∈ (dedupRun key l seen).2 ↔ k ∈ seen ∨ ∃ a ∈ l, key a = k := by
  induction l generalizing seen with
  | nil => simp [dedupRun]
  | cons a as ih =>
    by_cases h : key a ∈ seen
    · rw [dedupRun_cons_mem _ h, ih]
      constructor
      · rintro (hs | ⟨b, hb, hk⟩)
        · exact Or.inl hs
        · exact Or.inr ⟨b, List.mem_cons_of_mem _ hb, hk⟩
      · rintro (hs | ⟨b, hb, hk⟩)
        · exact Or.inl hs
        · rcases List.mem_cons.mp hb with rfl | hb'
          · exact Or.inl (hk ▸ h)
          · exact Or.inr ⟨b, hb', hk⟩
    · rw [dedupRun_cons_not_mem _ h, ih]
      constructor
      · rintro (hs | ⟨b, hb, hk⟩)
        · rcases List.mem_cons.mp hs with rfl | hs'
          · exact Or.inr ⟨a, List.mem_cons_self a as, rfl⟩
          · exact Or.inl hs'
        · exact Or.inr ⟨b, List.mem_cons_of_mem _ hb, hk⟩
      · rintro (hs | ⟨b, hb, hk⟩)
        · exact Or.inl (List.mem_cons_of_mem _ hs)
        · rcases List.mem_cons.mp hb with rfl | hb'
          · exact Or.inl (hk ▸ List.mem_cons_self (key b) seen)
          · exact Or.inr ⟨b, hb', hk⟩

theorem dedupRun_retained {α : Type} (key : α → String) (l : List α) (seen : List String) :
    (∀ a ∈ (dedupRun key l seen).1, key a ∉ seen ∧ a ∈ l)
  ∧ ((dedupRun key l seen).1.map key).Nodup := by
  induction l generalizing seen with
  | nil => simp [dedupRun]
  | cons a as ih =>
    by_cases h : key a ∈ seen
    · rw [dedupRun_cons_mem _ h]
      refine ⟨fun b hb => ?_, (ih seen).2⟩
      exact ⟨((ih seen).1 b hb).1, List.mem_cons_of_mem _ ((ih seen).1 b hb).2⟩
    · rw [dedupRun_cons_not_mem _ h]
      obtain ⟨hmem, hnodup⟩ := ih (key a :: seen)
      refine ⟨fun b hb => ?_, ?_⟩
      · rcases List.mem_cons.mp hb with rfl | hb'
        · exact ⟨h, List.mem_cons_self b as⟩
        · exact ⟨fun hc => (hmem b hb').1 (List.mem_cons_of_mem _ hc),
                 List.mem_cons_of_mem _ (hmem b hb').2⟩
      · refine List.nodup_cons.mpr ⟨fun hc => ?_, hnodup⟩
        obtain ⟨b, hb, hk⟩ := List.mem_map.mp hc
        exact (hmem b hb).1 (hk ▸ List.mem_cons_self (key a) seen)

theorem mem_key_dedupRun {α : Type} (key : α → String) (l : List α) (seen : List String)
    (k : String) :
    k ∈ (dedupRun key l seen).1.map key ↔ k ∉ seen ∧ ∃ a ∈ l, key a = k := by
  induction l generalizing seen with
  | nil => simp [dedupRun]
  | cons a as ih =>
    by_cases h : key a ∈ seen
    · rw [dedupRun_cons_mem _ h, ih]
      constructor
      · rintro ⟨hns, b, hb, hk⟩
        exact ⟨hns, b, List.mem_cons_of_mem _ hb, hk⟩
      · rintro ⟨hns, b, hb, hk⟩
        rcases List.mem_cons.mp hb with rfl | hb'
        · exact absurd (hk ▸ h) hns
        · exact ⟨hns, b, hb', hk⟩
    · rw [dedupRun_cons_not_mem _ h]
      rw [List.map_cons]
      constructor
      · intro hmem
        rcases List.mem_cons.mp hmem with rfl | hmem'
        · exact ⟨h, a, List.mem_cons_self a as, rfl⟩
        · obtain ⟨hns, b, hb, hk⟩ := (ih (key a :: seen)).mp hmem'
          exact ⟨fun hc => hns (List.mem_cons_of_mem _ hc), b, List.mem_cons_of_mem _ hb, hk⟩
      · rintro ⟨hns, b, hb, hk⟩
        rcases List.mem_cons.mp hb with rfl | hb'
        · exact hk ▸ List.mem_cons_self (key b) _
        · by_cases hak : k = key a
          · exact hak ▸ List.mem_cons_self (key a) _
          · refine List.mem_cons_of_mem _ ((ih (key a :: seen)).mpr ⟨?_, b, hb', hk⟩)
            intro hc
            rcases List.mem_cons.mp hc with hk' | hk'
            · exact hak hk'
            · exact hns hk'

theorem dedupRun_of_keys_nodup {α : Type} (key : α → String) (l : List α) (seen : List String)
    (hnodup : (l.map key).Nodup) (hfresh : ∀ a ∈ l, key a ∉ seen) :
    (dedupRun key l seen).1 = l := by
  induction l generalizing seen with
  | nil => simp [dedupRun]
  | cons a as ih =>
    rw [dedupRun_cons_not_mem _ (hfresh a (List.mem_cons_self a as))]
    simp only [List.map_cons, List.nodup_cons] at hnodup
    have hrest : (dedupRun key as (key a :: seen)).1 = as := by
      refine ih (key a :: seen) hnodup.2 fun b hb hc => ?_
      rcases List.mem_cons.mp hc with hk | hk
      · exact hnodup.1 (hk ▸ List.mem_map_of_mem key hb)
      · exact hfresh b (List.mem_cons_of_mem _ hb) hk
    rw [hrest]

theorem dedupRun_all_seen {α : Type} (key : α → String) (l : List α) (seen : List String)
    (h : ∀ a ∈ l, key a ∈ seen) :
    dedupRun key l seen = ([], seen) := by
  induction l with
  | nil => simp [dedupRun]
  | cons a as ih =>
    rw [dedupRun_cons_mem _ (h a (List.mem_cons_self a as))]
    exact ih fun b hb => h b (List.mem_cons_of_mem _ hb)

theorem stateLabelLinesOf_append (l₁ l₂ : List MLine) :
    stateLabelLinesOf (l₁ ++ l₂) = stateLabelLinesOf l₁ ++ stateLabelLinesOf l₂ :=
  List.filter_append ..

theorem edgeLinesOf_append (l₁ l₂ : List MLine) :
    edgeLinesOf (l₁ ++ l₂) = edgeLinesOf l₁ ++ edgeLinesOf l₂ :=
  List.filter_append ..

theorem edgeLinesOf_map_edgeLineAt (lopts : LabelOptions) (pad : String) (es : List Edge) :
    edgeLinesOf (es.map (edgeLineAt lopts pad)) = es.map (edgeLineAt lopts pad) := by
  refine List.filter_eq_self.mpr fun x hx => ?_
  obtain ⟨e, _, rfl⟩ := List.mem_map.mp hx
  rfl

theorem stateLabelLinesOf_map_edgeLineAt (lopts : LabelOptions) (pad : String) (es : List Edge) :
    stateLabelLinesOf (es.map (edgeLineAt lopts pad)) = [] := by
  refine List.filter_eq_nil_iff.mpr fun x hx => ?_
  obtain ⟨e, _, rfl⟩ := List.mem_map.mp hx
  simp [isStateLabelLine, edgeLineAt]

theorem stateLabelLinesOf_label (cfg : FlatCfg) (n : DirectedGraphNode) :
    stateLabelLinesOf [flatLabelLine cfg n] = [flatLabelLine cfg n] := rfl

theorem edgeLinesOf_label (cfg : FlatCfg) (n : DirectedGraphNode) :
    edgeLinesOf [flatLabelLine cfg n] = [] := rfl

theorem foldl_emitEdgeFlat (lopts : LabelOptions) (pad : String) (es : List Edge)
    (st : FlatState) :
    es.foldl (emitEdgeFlat lopts pad) st =
      { lines := st.lines ++ (dedupRun edgeKeyFlat es st.seenEdges).1.map (edgeLineAt lopts pad),
        seenEdges := (dedupRun edgeKeyFlat es st.seenEdges).2,
        seenStates := st.seenStates } := by
  induction es generalizing st with
  | nil => simp [dedupRun]
  | cons e rest ih =>
    rw [List.foldl_cons]
    by_cases h : edgeKeyFlat e ∈ st.seenEdges
    · have he : emitEdgeFlat lopts pad st e = st := by
        unfold emitEdgeFlat
        rw [if_pos ((contains_iff_mem ..).mpr h)]
      rw [he, ih, dedupRun_cons_mem _ h]
    · have he : emitEdgeFlat lopts pad st e =
          { lines := st.lines ++ [edgeLineAt lopts pad e],
            seenEdges := edgeKeyFlat e :: st.seenEdges,
            seenStates := st.seenStates } := by
        unfold emitEdgeFlat
        rw [if_neg (fun hc => h ((contains_iff_mem ..).mp hc))]
      rw [he, ih, dedupRun_cons_not_mem _ h]
      simp [List.append_assoc]

theorem foldl_emitEdgeNested (lopts : LabelOptions) (pad : String) (es : List Edge)
    (st : NestState) :
    es.foldl (emitEdgeNested lopts pad) st =
      { lines := st.lines
          ++ (dedupRun edgeKeyNested es st.processedEdges).1.map (edgeLineAt lopts pad),
        processedEdges := (dedupRun edgeKeyNested es st.processedEdges).2 } := by
  induction es generalizing st with
  | nil => simp [dedupRun]
  | cons e rest ih =>
    rw [List.foldl_cons]
    by_cases h : edgeKeyNested e ∈ st.processedEdges
    · have he : emitEdgeNested lopts pad st e = st := by
        unfold emitEdgeNested
        rw [if_pos ((contains_iff_mem ..).mpr h)]
      rw [he, ih, dedupRun_cons_mem _ h]
    · have he : emitEdgeNested lopts pad st e =
          { lines := st.lines ++ [edgeLineAt lopts pad e],
            processedEdges := edgeKeyNested e :: st.processedEdges } := by
        unfold emitEdgeNested
        rw [if_neg (fun hc => h ((contains_iff_mem ..).mp hc))]
      rw [he, ih, dedupRun_cons_not_mem _ h]
      simp [List.append_assoc]

mutual

/-- Characterization of one `collectAll` call: the final dedup sets are the
reference run's over the subtree's preorder nodes and edges, the new
state-label lines are the retained nodes' labels, and the new edge lines are
the retained edges' arrow lines. -/
theorem collectAll_spec (cfg : FlatCfg) (n : DirectedGraphNode) (st : FlatState) :
    (collectAll cfg n st).seenStates = (dedupRun shortNameOf (preorderNode n) st.seenStates).2
  ∧ (collectAll cfg n st).seenEdges = (dedupRun edgeKeyFlat (edgesNode n) st.seenEdges).2
  ∧ stateLabelLinesOf (collectAll cfg n st).lines
      = stateLabelLinesOf st.lines
        ++ (dedupRun shortNameOf (preorderNode n) st.seenStates).1.map (flatLabelLine cfg)
  ∧ edgeLinesOf (collectAll cfg n st).lines
      = edgeLinesOf st.lines
        ++ (dedupRun edgeKeyFlat (edgesNode n) st.seenEdges).1.map
            (edgeLineAt cfg.labelOptions "    ") := by
  obtain ⟨i, sn, es, cs⟩ := n
  by_cases h : shortNameOf (DirectedGraphNode.mk i sn es cs) ∈ st.seenStates
  · have hstep : collectAll cfg (.mk i sn es cs) st
        = collectAllList cfg cs (es.foldl (emitEdgeFlat cfg.labelOptions "    ") st) := by
      rw [collectAll, if_pos ((contains_iff_mem ..).mpr h)]
    rw [hstep, foldl_emitEdgeFlat]
    obtain ⟨h1, h2, h3, h4⟩ := collectAllList_spec cfg cs
      { lines := st.lines ++ (dedupRun edgeKeyFlat es st.seenEdges).1.map
          (edgeLineAt cfg.labelOptions "    "),
        seenEdges := (dedupRun edgeKeyFlat es st.seenEdges).2,
        seenStates := st.seenStates }
    rw [h1, h2, h3, h4]
    rw [preorderNode, dedupRun_cons_mem _ h, edgesNode, dedupRun_append]
    refine ⟨rfl, rfl, ?_, ?_⟩
    · rw [stateLabelLinesOf_append, stateLabelLinesOf_map_edgeLineAt, List.append_nil]
    · rw [edgeLinesOf_append, edgeLinesOf_map_edgeLineAt, List.map_append, List.append_assoc]
  · have hstep : collectAll cfg (.mk i sn es cs) st
        = collectAllList cfg cs (es.foldl (emitEdgeFlat cfg.labelOptions "    ")
            { st with seenStates := shortNameOf (DirectedGraphNode.mk i sn es cs) :: st.seenStates,
                      lines := st.lines ++ [flatLabelLine cfg (.mk i sn es cs)] }) := by
      rw [collectAll, if_neg (fun hc => h ((contains_iff_mem ..).mp hc))]
    rw [hstep, foldl_emitEdgeFlat]
    obtain ⟨h1, h2, h3, h4⟩ := collectAllList_spec cfg cs
      { lines := (st.lines ++ [flatLabelLine cfg (.mk i sn es cs)])
          ++ (dedupRun edgeKeyFlat es st.seenEdges).1.map (edgeLineAt cfg.labelOptions "    "),
        seenEdges := (dedupRun edgeKeyFlat es st.seenEdges).2,
        seenStates := shortNameOf (DirectedGraphNode.mk i sn es cs) :: st.seenStates }
    rw [h1, h2, h3, h4]
    rw [preorderNode, dedupRun_cons_not_mem _ h, edgesNode, dedupRun_append]
    refine ⟨rfl, rfl, ?_, ?_⟩
    · rw [stateLabelLinesOf_append, stateLabelLinesOf_append,
          stateLabelLinesOf_map_edgeLineAt, List.append_nil, stateLabelLinesOf_label,
          List.map_cons, List.append_assoc, List.singleton_append]
    · rw [edgeLinesOf_append, edgeLinesOf_append, edgeLinesOf_map_edgeLineAt,
          edgeLinesOf_label, List.append_nil, List.map_append, List.append_assoc]

/-- Characterization of `collectAllList` over a forest, same shape as
`collectAll_spec`. -/
theorem collectAllList_spec (cfg : FlatCfg) (ns : List DirectedGraphNode) (st : FlatState) :
    (collectAllList cfg ns st).seenStates
        = (dedupRun shortNameOf (preorderList ns) st.seenStates).2
  ∧ (collectAllList cfg ns st).seenEdges
        = (dedupRun edgeKeyFlat (edgesList ns) st.seenEdges).2
  ∧ stateLabelLinesOf (collectAllList cfg ns st).lines
      = stateLabelLinesOf st.lines
        ++ (dedupRun shortNameOf (preorderList ns) st.seenStates).1.map (flatLabelLine cfg)
  ∧ edgeLinesOf (collectAllList cfg ns st).lines
      = edgeLinesOf st.lines
        ++ (dedupRun edgeKeyFlat (edgesList ns) st.seenEdges).1.map
            (edgeLineAt cfg.labelOptions "    ") := by
  cases ns with
  | nil => simp [collectAllList, preorderList, edgesList, dedupRun]
  | cons n rest =>
    rw [collectAllList]
    obtain ⟨g1, g2, g3, g4⟩ := collectAll_spec cfg n st
    obtain ⟨h1, h2, h3, h4⟩ := collectAllList_spec cfg rest (collectAll cfg n st)
    rw [h1, h2, h3, h4, g1, g2, g3, g4]
    rw [preorderList, edgesList, dedupRun_append, dedupRun_append]
    exact ⟨rfl, rfl, by rw [List.map_append, List.append_assoc],
           by rw [List.map_append, List.append_assoc]⟩

end

theorem headerLines_no_labels_edges (m : Machine) (o : MermaidOptions) :
    stateLabelLinesOf (headerLines m o) = []
  ∧ edgeLinesOf (headerLines m o) = []
  ∧ (headerLines m o).filter isContainerLine = [] := by
  unfold headerLines
  rcases o.title with _ | t <;> rcases m.config_initial with _ | i <;>
    simp [stateLabelLinesOf, edgeLinesOf, isStateLabelLine, isEdgeLine, isContainerLine]

/-- Characterization of the full flat pipeline: the edge lines of the output
are the first-occurrence dedup (keyed by the flat short-name key) of the
top-level edges followed by the preorder edges of the children, and the
state-label lines are the first-occurrence dedup (keyed by short name) of
the children's preorder nodes. -/
theorem toMermaidState_spec (m : Machine) (o : MermaidOptions) :
    edgeLinesOf (toMermaidState m o).lines
      = (dedupRun edgeKeyFlat (m.digraph.edges ++ edgesList m.digraph.children) []).1.map
          (edgeLineAt (flatCfgOf o).labelOptions "    ")
  ∧ stateLabelLinesOf (toMermaidState m o).lines
      = (dedupRun shortNameOf (preorderList m.digraph.children) []).1.map
          (flatLabelLine (flatCfgOf o)) := by
  obtain ⟨hlab0, hedge0, _⟩ := headerLines_no_labels_edges m o
  unfold toMermaidState
  rw [foldl_emitEdgeFlat]
  dsimp only
  obtain ⟨h1, h2, h3, h4⟩ := collectAllList_spec (flatCfgOf o) m.digraph.children
    { lines := headerLines m o
        ++ (dedupRun edgeKeyFlat m.digraph.edges []).1.map
            (edgeLineAt (flatCfgOf o).labelOptions "    "),
      seenEdges := (dedupRun edgeKeyFlat m.digraph.edges []).2,
      seenStates := [] }
  dsimp only at h3 h4
  rw [dedupRun_append]
  constructor
  · rw [h4]
    rw [edgeLinesOf_append, hedge0, List.nil_append, edgeLinesOf_map_edgeLineAt,
        List.map_append]
  · rw [h3]
    rw [stateLabelLinesOf_append, hlab0, List.nil_append, stateLabelLinesOf_map_edgeLineAt,
        List.nil_append]

theorem processNode_leaf (cfg : FlatCfg) (n : DirectedGraphNode) (indent : Nat)
    (st : NestState) (h : n.children = []) :
    processNode cfg n indent st
      = { st with lines := st.lines
            ++ [MLine.stateLabel (padOf indent) (shortNameOf n) (labelTextFor cfg n)] } := by
  obtain ⟨i, sn, es, cs⟩ := n
  simp only [DirectedGraphNode.children] at h
  subst h
  rw [processNode]
  rfl

theorem processNodeList_leaves (cfg : FlatCfg) (ns : List DirectedGraphNode) (indent : Nat)
    (st : NestState) (h : ∀ n ∈ ns, n.children = []) :
    (processNodeList cfg ns indent st).processedEdges = st.processedEdges
  ∧ edgeLinesOf (processNodeList cfg ns indent st).lines = edgeLinesOf st.lines
  ∧ (processNodeList cfg ns indent st).lines.filter isContainerLine
      = st.lines.filter isContainerLine := by
  induction ns generalizing st with
  | nil => exact ⟨rfl, rfl, rfl⟩
  | cons n rest ih =>
    rw [processNodeList, processNode_leaf cfg n indent st (h n (List.mem_cons_self n rest))]
    obtain ⟨h1, h2, h3⟩ := ih _ (fun b hb => h b (List.mem_cons_of_mem _ hb))
    refine ⟨h1, ?_, ?_⟩
    · rw [h2, edgeLinesOf_append]
      simp [edgeLinesOf, isEdgeLine]
    · rw [h3, List.filter_append]
      simp [isContainerLine]

/-- Characterization of the nested pipeline on a machine whose top-level
children are all leaves: the only edge lines are the deduplicated (by the
full-identity key) top-level edges, and no container syntax is emitted. -/
theorem toMermaidNestedState_flat (m : Machine) (o : MermaidOptions)
    (h1 : ∀ c ∈ m.digraph.children, c.children = []) :
    edgeLinesOf (toMermaidNestedState m o).lines
      = (dedupRun edgeKeyNested m.digraph.edges []).1.map
          (edgeLineAt (flatCfgOf o).labelOptions "    ")
  ∧ (toMermaidNestedState m o).lines.filter isContainerLine = [] := by
  obtain ⟨_, hedge0, hcont0⟩ := headerLines_no_labels_edges m o
  unfold toMermaidNestedState
  obtain ⟨g1, g2, g3⟩ := processNodeList_leaves (flatCfgOf o) m.digraph.children 1
    ⟨headerLines m o, []⟩ h1
  dsimp only at g1 g2 g3
  rw [foldl_emitEdgeNested, g1]
  dsimp only
  constructor
  · rw [edgeLinesOf_append, g2, hedge0, List.nil_append, edgeLinesOf_map_edgeLineAt]
  · rw [List.filter_append, g3, hcont0, List.nil_append]
    refine List.filter_eq_nil_iff.mpr fun x hx => ?_
    obtain ⟨e, _, rfl⟩ := List.mem_map.mp hx
    simp [isContainerLine, edgeLineAt]

/-- Occurrence of the delay pattern `xstate\.after\.(\d+)\.` at the head of
a character list: the literal prefix, one or more digits, then a dot. -/
def delayOccurrenceAt (l : List Char) : Prop :=
  ∃ ds rest, ds ≠ [] ∧ (∀ c ∈ ds, c.isDigit = true) ∧ l = afterPrefix ++ (ds ++ '.' :: rest)

theorem takeWhile_digits_dot (ds rest : List Char) (hds : ∀ c ∈ ds, c.isDigit = true) :
    (ds ++ '.' :: rest).takeWhile Char.isDigit = ds
  ∧ (ds ++ '.' :: rest).dropWhile Char.isDigit = '.' :: rest := by
  induction ds with
  | nil => simp [List.takeWhile, List.dropWhile]
  | cons c t ih =>
    have hc : c.isDigit = true := hds c (List.mem_cons_self c t)
    obtain ⟨h1, h2⟩ := ih fun b hb => hds b (List.mem_cons_of_mem _ hb)
    rw [List.cons_append]
    constructor
    · rw [List.takeWhile_cons, hc]
      simp only [if_pos]
      rw [h1]
    · rw [List.dropWhile_cons, hc]
      simp only [if_pos]
      rw [h2]

theorem matchAfterAt_eq_some (ds rest : List Char) (hne : ds ≠ [])
    (hds : ∀ c ∈ ds, c.isDigit = true) :
    matchAfterAt (afterPrefix ++ (ds ++ '.' :: rest)) = some ds := by
  obtain ⟨h1, h2⟩ := takeWhile_digits_dot ds rest hds
  unfold matchAfterAt
  rw [if_pos (List.isPrefixOf_iff_prefix.mpr (List.prefix_append ..))]
  dsimp only
  rw [List.drop_left, h1, h2]
  rw [if_pos ⟨hne, rfl⟩]

theorem matchAfterAt_some (l ds : List Char) (h : matchAfterAt l = some ds) :
    delayOccurrenceAt l ∧ ds = (l.drop afterPrefix.length).takeWhile Char.isDigit := by
  unfold matchAfterAt at h
  by_cases hp : afterPrefix.isPrefixOf l
  · rw [if_pos hp] at h
    by_cases hcond : (l.drop afterPrefix.length).takeWhile Char.isDigit ≠ []
        ∧ ((l.drop afterPrefix.length).dropWhile Char.isDigit).head? = some '.'
    · rw [if_pos hcond] at h
      obtain ⟨rest0, hl⟩ := List.isPrefixOf_iff_prefix.mp hp
      have hdrop : l.drop afterPrefix.length = rest0 := by
        rw [← hl, List.drop_left]
      obtain ⟨hds0, hhead⟩ := hcond
      have hd : ds = (l.drop afterPrefix.length).takeWhile Char.isDigit :=
        (Option.some.injEq .. ▸ h).symm
      obtain ⟨tail, htail⟩ : ∃ tail,
          (l.drop afterPrefix.length).dropWhile Char.isDigit = '.' :: tail := by
        cases hdw : (l.drop afterPrefix.length).dropWhile Char.isDigit with
        | nil => rw [hdw] at hhead; exact absurd hhead (by simp)
        | cons x xs =>
          rw [hdw] at hhead
          simp only [List.head?_cons, Option.some.injEq] at hhead
          exact ⟨xs, by rw [hhead]⟩
      refine ⟨⟨ds, tail, hd ▸ hds0, ?_, ?_⟩, hd⟩
      · intro c hc
        rw [hd] at hc
        exact List.mem_takeWhile_imp hc
      · rw [← hl, ← hdrop]
        congr 1
        rw [hd, ← htail, List.takeWhile_append_dropWhile]
    · rw [if_neg hcond] at h
      exact absurd h (by simp)
  · rw [if_neg hp] at h
    exact absurd h (by simp)

theorem matchAfterAt_nil : matchAfterAt [] = none := rfl

theorem searchAfter_eq_none (l : List Char) (h : searchAfter l = none) :
    ∀ i, matchAfterAt (l.drop i) = none := by
  induction l with
  | nil => intro i; rw [List.drop_nil]; exact matchAfterAt_nil
  | cons c t ih =>
    rw [searchAfter] at h
    cases hm : matchAfterAt (c :: t) with
    | some ds => rw [hm] at h; exact absurd h (by simp)
    | none =>
      rw [hm] at h
      intro i
      cases i with
      | zero => exact hm
      | succ j => exact ih h j

theorem searchAfter_eq_some (l : List Char) (ds : List Char) (h : searchAfter l = some ds) :
    ∃ i, matchAfterAt (l.drop i) = some ds := by
  induction l with
  | nil => exact absurd h (by simp [searchAfter])
  | cons c t ih =>
    rw [searchAfter] at h
    cases hm : matchAfterAt (c :: t) with
    | some d =>
      rw [hm] at h
      simp only [Option.some.injEq] at h
      exact ⟨0, by rw [List.drop_zero, hm, h]⟩
    | none =>
      rw [hm] at h
      obtain ⟨i, hi⟩ := ih h
      exact ⟨i + 1, hi⟩

theorem searchAfter_of_match (l ds : List Char) (h : matchAfterAt l = some ds) :
    searchAfter l = some ds := by
  cases l with
  | nil => exact absurd (matchAfterAt_nil ▸ h) (by simp)
  | cons c t => rw [searchAfter, h]

theorem edgesNode_leaf (n : DirectedGraphNode) (h : n.children = []) :
    edgesNode n = n.edges := by
  obtain ⟨i, sn, es, cs⟩ := n
  simp only [DirectedGraphNode.children] at h
  subst h
  rw [edgesNode, edgesList, List.append_nil]
  rfl

theorem mem_edgesList (ns : List DirectedGraphNode) (e : Edge) :
    e ∈ edgesList ns ↔ ∃ n ∈ ns, e ∈ edgesNode n := by
  induction ns with
  | nil => simp [edgesList]
  | cons n rest ih =>
    rw [edgesList, List.mem_append, ih]
    constructor
    · rintro (he | ⟨b, hb, he⟩)
      · exact ⟨n, List.mem_cons_self n rest, he⟩
      · exact ⟨b, List.mem_cons_of_mem _ hb, he⟩
    · rintro ⟨b, hb, he⟩
      rcases List.mem_cons.mp hb with rfl | hb'
      · exact Or.inl he
      · exact Or.inr ⟨b, hb', he⟩

/-- Machine of the repository's field-coverage test (a single state declaring
every optional field — description, tags, meta, entry, exit, invoke — and a
guarded transition with an action plus a delayed transition), presented as
the graph the external collaborator builds for it. -/
def comprehensiveStateA : DirectedGraphNode :=
  .mk "comprehensive.stateA"
    { description := some "FIELD_DESCRIPTION_CHECK"
      tags := some ["tagA", "category"]
      meta := some { invariants := none, other := [("customKey", "FIELD_META_CHECK")] }
      entry := some [⟨"onEnter"⟩]
      exit := some [⟨"onExit"⟩]
      invoke := some [⟨"someService", "FIELD_INVOKE_CHECK"⟩] }
    [⟨"comprehensive.stateA", "comprehensive.stateB", ⟨"GO", some ⟨"isValid"⟩, some [⟨"transitionAction"⟩]⟩⟩,
     ⟨"comprehensive.stateA", "comprehensive.stateB", ⟨"xstate.after.1000.comprehensive.stateA", none, none⟩⟩]
    []

/-- Companion target state of the field-coverage machine. -/
def comprehensiveStateB : DirectedGraphNode :=
  .mk "comprehensive.stateB" {} [] []

/-- Field-coverage machine (see `comprehensiveStateA`). -/
def comprehensiveMachine : Machine :=
  { config_initial := some "stateA"
    digraph := .mk "comprehensive" {} [] [comprehensiveStateA, comprehensiveStateB] }

/-- Transition edge `idle --GO--> active` of the two-state demo machine. -/
def eGo : Edge := ⟨"m.idle", "m.active", ⟨"GO", none, none⟩⟩

/-- Transition edge `active --STOP--> idle` of the two-state demo machine. -/
def eStop : Edge := ⟨"m.active", "m.idle", ⟨"STOP", none, none⟩⟩

/-- Leaf state `idle` of the two-state demo machine. -/
def idleNode : DirectedGraphNode := .mk "m.idle" {} [eGo] []

/-- Leaf state `active` of the two-state demo machine. -/
def activeNode : DirectedGraphNode := .mk "m.active" {} [eStop] []

/-- Two-state machine with zero compound states, with its edges present in
the root-level edge list as the data model of the external graph builder
guarantees (each node's list covers the edges among its descendants). -/
def flatDemoMachine : Machine :=
  { config_initial := some "idle"
    digraph := .mk "m" {} [eGo, eStop] [idleNode, activeNode] }

/-- Root-level edge of the short-name-collision machine: machine id `m`,
state named `m` (full id `m.m`), machine-level transition on `E`. -/
def eCollideRoot : Edge := ⟨"m", "m.m", ⟨"E", none, none⟩⟩

/-- State-level guarded self-transition of the collision machine: same short
names and event as `eCollideRoot` but a different full identity and label. -/
def eCollideChild : Edge := ⟨"m.m", "m.m", ⟨"E", some ⟨"g"⟩, none⟩⟩

/-- Machine id `m` with a single leaf state named `m`: both nodes have short
name `m`, so the two distinct edges collide on the flat dedup key but not on
the nested one. -/
def collideMachine : Machine :=
  { config_initial := some "m"
    digraph := .mk "m" {} [eCollideRoot, eCollideChild]
      [.mk "m.m" {} [eCollideChild] []] }

/-- Node whose entry list mixes a reserved internal action and a user one. -/
def filterDemoNode : DirectedGraphNode :=
  .mk "m.s" { entry := some [⟨"xstate.assign"⟩, ⟨"doX"⟩] } [] []

/-- Transition whose action list mixes a reserved internal action and a user
one. -/
def filterDemoTransition : Transition :=
  ⟨"E", none, some [⟨"xstate.raise"⟩, ⟨"notify"⟩]⟩

/-- Node declaring the empty string as its description. -/
def emptyDescNode : DirectedGraphNode :=
  .mk "m.s" { description := some "" } [] []

/-- Node declaring a description containing a colon. -/
def colonDescNode : DirectedGraphNode :=
  .mk "m.s" { description := some "status: ready" } [] []

example : getStateName "machine.parent.child" = "child" := by decide
example : formatEventName "xstate.after.60000.machine.a" = "after 60000ms" := by decide
example : formatEventName "CLICK" = "CLICK" := by decide
example : formatEventName "xstate.after.x.m" = "xstate.after.x.m" := by decide
example : escapeMermaidText "a: b" = "a - b" := by decide

set_option maxRecDepth 100000 in
/-- C1: evaluation of `toMermaid` at the field-coverage machine (single state
declaring description, tags, meta, entry, exit and invoke; transitions with
guard, action and delay).  The output renders description, entry actions,
invoke, guard, transition action and delay — but the declared tag strings,
the `meta` key and value, and the exit action never appear anywhere in the
returned text: `buildStateLabel` (lines 135-185) has no tags, meta or exit
section, contradicting the claim (and the repository's own field-coverage
test, which requires all three to render). -/
theorem toMermaid_field_coverage_gap :
    ("FIELD_DESCRIPTION_CHECK".toList <:+: (toMermaid comprehensiveMachine {}).toList)
  ∧ ("⚡ onEnter".toList <:+: (toMermaid comprehensiveMachine {}).toList)
  ∧ ("FIELD_INVOKE_CHECK".toList <:+: (toMermaid comprehensiveMachine {}).toList)
  ∧ ("GO IF isValid".toList <:+: (toMermaid comprehensiveMachine {}).toList)
  ∧ ("⚡ transitionAction".toList <:+: (toMermaid comprehensiveMachine {}).toList)
  ∧ ("after 1000ms".toList <:+: (toMermaid comprehensiveMachine {}).toList)
  ∧ ¬ ("tagA".toList <:+: (toMermaid comprehensiveMachine {}).toList)
  ∧ ¬ ("FIELD_META_CHECK".toList <:+: (toMermaid comprehensiveMachine {}).toList)
  ∧ ¬ ("customKey".toList <:+: (toMermaid comprehensiveMachine {}).toList)
  ∧ ¬ ("onExit".toList <:+: (toMermaid comprehensiveMachine {}).toList) := by
  refine ⟨by decide, by decide, by decide, by decide, by decide, by decide,
          by decide, by decide, by decide, by decide⟩

/-- C2: completeness of the flat output.  For every machine and options, the
flat dedup keys (source short name, target short name, event type) of the
edge lines emitted by `toMermaid` are pairwise distinct, and a key occurs
exactly when some edge reachable from the graph root (a top-level edge or an
edge of any node in the child forest) carries it: no triple is emitted
twice and no reachable edge's triple is dropped. -/
theorem toMermaid_edge_completeness (m : Machine) (o : MermaidOptions) :
    (edgeKeysOfLines (toMermaidState m o).lines).Nodup
  ∧ ∀ k, k ∈ edgeKeysOfLines (toMermaidState m o).lines
      ↔ ∃ e, (e ∈ m.digraph.edges ∨ e ∈ edgesList m.digraph.children) ∧ edgeKeyFlat e = k := by
  have hkeys : edgeKeysOfLines (toMermaidState m o).lines
      = ((dedupRun edgeKeyFlat (m.digraph.edges ++ edgesList m.digraph.children) []).1).map
          edgeKeyFlat := by
    unfold edgeKeysOfLines
    rw [(toMermaidState_spec m o).1, List.filterMap_map]
    have hc : edgeOfLine ∘ edgeLineAt (flatCfgOf o).labelOptions "    " = some := by
      funext e; rfl
    rw [hc, List.filterMap_some]
  constructor
  · rw [hkeys]
    exact (dedupRun_retained edgeKeyFlat _ []).2
  · intro k
    rw [hkeys, mem_key_dedupRun]
    constructor
    · rintro ⟨-, e, he, hk⟩
      exact ⟨e, List.mem_append.mp he, hk⟩
    · rintro ⟨e, he, hk⟩
      exact ⟨List.not_mem_nil k, e, List.mem_append.mpr he, hk⟩

set_option maxRecDepth 100000 in
/-- C3 counterexample: the machine `collideMachine` has zero compound states
(its only state is the leaf `m.m`), yet the nested output contains the
transition line `    m --> m: E IF g` (the guarded state-level transition,
kept by the full-identity dedup key) while the flat output does not (the
short-name dedup key collides with the machine-level transition, so the flat
walker drops the guarded edge).  The two outputs therefore do not contain
the same set of transition lines. -/
theorem nested_flat_divergence_cex :
    ("    m --> m: E IF g" ∈ transitionLines (toMermaidNestedState collideMachine {}).lines)
  ∧ ("    m --> m: E IF g" ∉ transitionLines (toMermaidState collideMachine {}).lines) := by
  decide

/-- C3 (amended): for a machine with zero compound states whose leaf-owned
edges all appear in the root-level edge list (the external graph builder's
data-model guarantee) and whose top-level edges collide neither on the flat
short-name dedup key nor on the nested full-identity dedup key, the nested
output contains exactly the same transition lines as the flat output, and no
container-block syntax. -/
theorem nested_flat_equiv_on_flat (m : Machine) (o : MermaidOptions)
    (h1 : ∀ c ∈ m.digraph.children, c.children = [])
    (h2 : ∀ c ∈ m.digraph.children, ∀ e ∈ c.edges, e ∈ m.digraph.edges)
    (h3 : (m.digraph.edges.map edgeKeyFlat).Nodup)
    (h4 : (m.digraph.edges.map edgeKeyNested).Nodup) :
    transitionLines (toMermaidNestedState m o).lines
      = transitionLines (toMermaidState m o).lines
  ∧ (toMermaidNestedState m o).lines.filter isContainerLine = [] := by
  obtain ⟨hn1, hn2⟩ := toMermaidNestedState_flat m o h1
  refine ⟨?_, hn2⟩
  unfold transitionLines
  rw [hn1, (toMermaidState_spec m o).1]
  have hchild : ∀ e ∈ edgesList m.digraph.children,
      edgeKeyFlat e ∈ (dedupRun edgeKeyFlat m.digraph.edges []).2 := by
    intro e he
    obtain ⟨c, hc, hec⟩ := (mem_edgesList _ e).mp he
    rw [edgesNode_leaf c (h1 c hc)] at hec
    rw [dedupRun_seen_mem]
    exact Or.inr ⟨e, h2 c hc e hec, rfl⟩
  rw [dedupRun_append, dedupRun_all_seen _ _ _ hchild]
  rw [dedupRun_of_keys_nodup _ _ _ h3 (fun a _ => List.not_mem_nil _),
      dedupRun_of_keys_nodup _ _ _ h4 (fun a _ => List.not_mem_nil _)]
  simp

/-- C3 witness: the amended equivalence applied to the concrete two-state
flat machine, all hypotheses discharged. -/
theorem nested_flat_equiv_on_flat_witness :
    transitionLines (toMermaidNestedState flatDemoMachine {}).lines
      = transitionLines (toMermaidState flatDemoMachine {}).lines
  ∧ (toMermaidNestedState flatDemoMachine {}).lines.filter isContainerLine = [] :=
  nested_flat_equiv_on_flat flatDemoMachine {}
    (by
      intro c hc
      rcases List.mem_cons.mp hc with rfl | hc
      · rfl
      · rcases List.mem_cons.mp hc with rfl | hc
        · rfl
        · exact absurd hc (List.not_mem_nil c))
    (by decide) (by decide) (by decide)

set_option maxRecDepth 100000 in
/-- C4 counterexample: the identifier `xstate.after.x.xstate.after.500.id`
starts with the delay prefix but its numeric component (`x`) is not
parseable, so the claim requires it to be returned unchanged; the code's
unanchored regex search instead finds the later occurrence and renders
`after 500ms`. -/
theorem formatEventName_unanchored_cex :
    formatEventName "xstate.after.x.xstate.after.500.id" = "after 500ms"
  ∧ "after 500ms" ≠ "xstate.after.x.xstate.after.500.id" := by
  constructor <;> decide

/-- C4 (amended): an identifier of the form `xstate.after.<digits>.<rest>`
renders as `after <digits>ms` with the raw digit run; an identifier not
starting with the delay prefix is returned unchanged; and an identifier in
which the pattern `xstate.after.<digits>.` occurs at no position (in
particular one whose numeric component is unparseable and which contains no
later occurrence) is returned unchanged.  The code's regex search being
unanchored, an identifier with an unparseable component directly after the
prefix but a parseable occurrence later is rendered from that occurrence. -/
theorem formatEventName_delay_spec (ds rest : List Char) (s : String) :
    (ds ≠ [] → (∀ c ∈ ds, c.isDigit = true) →
      formatEventName ⟨afterPrefix ++ (ds ++ '.' :: rest)⟩
        = "after " ++ ds.asString ++ "ms")
  ∧ (afterPrefix.isPrefixOf s.toList = false → formatEventName s = s)
  ∧ ((∀ i, ¬ delayOccurrenceAt (s.toList.drop i)) → formatEventName s = s) := by
  refine ⟨fun hne hds => ?_, fun hp => ?_, fun hocc => ?_⟩
  · unfold formatEventName
    have hpre : afterPrefix.isPrefixOf (String.toList ⟨afterPrefix ++ (ds ++ '.' :: rest)⟩) :=
      List.isPrefixOf_iff_prefix.mpr (List.prefix_append ..)
    rw [if_pos hpre]
    have hm : searchAfter (String.toList ⟨afterPrefix ++ (ds ++ '.' :: rest)⟩) = some ds :=
      searchAfter_of_match _ _ (matchAfterAt_eq_some ds rest hne hds)
    rw [hm]
  · unfold formatEventName
    rw [if_neg (by rw [hp]; exact Bool.false_ne_true)]
  · unfold formatEventName
    cases hs : searchAfter s.toList with
    | none =>
      by_cases hp : afterPrefix.isPrefixOf s.toList
      · rw [if_pos hp]
      · rw [if_neg hp]
    | some ds' =>
      obtain ⟨i, hi⟩ := searchAfter_eq_some _ _ hs
      exact absurd (matchAfterAt_some _ _ hi).1 (hocc i)

/-- C4 witness: the amended positive case applied at a concrete delay
identifier. -/
theorem formatEventName_delay_spec_witness :
    formatEventName ⟨afterPrefix ++ ("5000".toList ++ '.' :: "machine.a".toList)⟩
      = "after " ++ "5000".toList.asString ++ "ms" :=
  (formatEventName_delay_spec "5000".toList "machine.a".toList "x").1 (by decide) (by decide)

/-- C5: truncation boundary of `buildStateLabel`.  With `maxLen = L > 0` and
an assembled label longer than `L`, the result is exactly the first `L`
characters of the assembled text followed by `...`; with the label not
exceeding `L`, and likewise with `L = 0` whatever the length, the assembled
text is returned in full. -/
theorem buildStateLabel_truncation (name : String) (desc : Option String)
    (invariants entry : List String) (invokes : List InvokeObj) (L : Nat) :
    (0 < L → L < (assembledStateText name desc invariants entry invokes).length →
      buildStateLabel name desc invariants entry invokes L
        = takeChars (assembledStateText name desc invariants entry invokes) L ++ "...")
  ∧ (0 < L → (assembledStateText name desc invariants entry invokes).length ≤ L →
      buildStateLabel name desc invariants entry invokes L
        = assembledStateText name desc invariants entry invokes)
  ∧ buildStateLabel name desc invariants entry invokes 0
      = assembledStateText name desc invariants entry invokes
  ∧ (takeChars (assembledStateText name desc invariants entry invokes) L).toList
      = (assembledStateText name desc invariants entry invokes).toList.take L := by
  unfold buildStateLabel
  refine ⟨fun hL hlen => ?_, fun hL hlen => ?_, ?_, rfl⟩
  · rw [if_pos ⟨hL, hlen⟩]
  · rw [if_neg fun hc => absurd hc.2 (not_lt.mpr hlen)]
  · rw [if_neg fun hc => absurd hc.1 (lt_irrefl 0)]

/-- C5 witness: a concrete truncation, via the theorem. -/
theorem buildStateLabel_truncation_witness :
    buildStateLabel "s" (some "0123456789") [] [] [] 5
      = takeChars (assembledStateText "s" (some "0123456789") [] [] []) 5 ++ "..." :=
  (buildStateLabel_truncation "s" (some "0123456789") [] [] [] 5).1 (by decide) (by decide)

set_option maxRecDepth 10000 in
/-- C6: evaluation of `formatTransitionLabel` (lines 103-125).  The code
emits the event name with no emphasis markup at all — no `<b>` around an
ordinary event and no `<i>`/`<b>` around `after` in the delay case — which
contradicts the claim (and the repository's field-coverage test, which
requires `<b>GO</b>` and an emphasized `after`). -/
theorem formatTransitionLabel_no_emphasis :
    formatTransitionLabel ⟨"GO", some ⟨"isValid"⟩, some [⟨"transitionAction"⟩]⟩ {}
      = "GO IF isValid<br/>⚡ transitionAction"
  ∧ formatTransitionLabel ⟨"xstate.after.1000.m", none, none⟩ {} = "after 1000ms"
  ∧ ¬ ("<b>".toList <:+: "GO IF isValid<br/>⚡ transitionAction".toList)
  ∧ ¬ ("<i>".toList <:+: "after 1000ms".toList) := by
  refine ⟨by decide, by decide, by decide, by decide⟩

/-- C7: internal-action filtering.  A reserved identifier (prefix `xstate.`)
is never an element of the entry-action names extracted by
`getEntryActions`, nor of the action names `formatTransitionLabel` renders
on a transition label. -/
theorem internal_actions_never_surface (node : DirectedGraphNode) (t : Transition)
    (a : String) (h : startsWithXstate a = true) :
    a ∉ getEntryActions node ∧ a ∉ renderedActionNames t := by
  constructor
  · intro hmem
    cases hn : node.stateNode.entry with
    | none => simp [getEntryActions, hn] at hmem
    | some l =>
      simp only [getEntryActions, hn] at hmem
      have hk := (List.mem_filter.mp hmem).2
      simp [actionKeep, h] at hk
  · intro hmem
    have hk := (List.mem_filter.mp hmem).2
    simp [actionKeep, h] at hk

/-- C7 witness: the filter applied to a concrete node and transition mixing
reserved and user actions. -/
theorem internal_actions_never_surface_witness :
    "xstate.assign" ∉ getEntryActions filterDemoNode
  ∧ "xstate.assign" ∉ renderedActionNames filterDemoTransition :=
  internal_actions_never_surface filterDemoNode filterDemoTransition "xstate.assign" (by decide)

/-- C8 counterexample: a node declaring the empty string as its description.
The claim requires `getDescription` to return the (escaped) declared
description, i.e. `some ""`; the code's truthiness test returns the absent
value instead. -/
theorem getDescription_empty_cex :
    emptyDescNode.stateNode.description = some ""
  ∧ getDescription emptyDescNode = none
  ∧ (none : Option String) ≠ some (escapeMermaidText "") := by
  refine ⟨rfl, rfl, by decide⟩

/-- C8 (amended): for a node with a declared non-empty description,
`getDescription` returns the description with the colon transform applied;
the escaped text never contains a colon (every `:` becomes ` -`); and for a
node with no description the absent value is returned (totally, without
failure). -/
theorem getDescription_colon_safe (node : DirectedGraphNode) (d : String) :
    (node.stateNode.description = some d → d ≠ "" →
      getDescription node = some (escapeMermaidText d))
  ∧ (∀ c ∈ (escapeMermaidText d).toList, c ≠ ':')
  ∧ (node.stateNode.description = none → getDescription node = none) := by
  refine ⟨fun h1 h2 => ?_, fun c hc => ?_, fun h1 => ?_⟩
  · simp only [getDescription, h1]
    rw [if_neg h2]
  · have hm : c ∈ d.toList.flatMap escapeChar := hc
    obtain ⟨x, _, hcx⟩ := List.mem_flatMap.mp hm
    by_cases hxc : x = ':'
    · rw [escapeChar, if_pos hxc] at hcx
      rcases List.mem_cons.mp hcx with rfl | hcx'
      · decide
      · rcases List.mem_singleton.mp hcx' with rfl
        decide
    · rw [escapeChar, if_neg hxc] at hcx
      rcases List.mem_singleton.mp hcx with rfl
      exact hxc
  · simp only [getDescription, h1]

/-- C8 witness: the amended behavior at a concrete node whose description
contains a colon. -/
theorem getDescription_colon_safe_witness :
    getDescription colonDescNode = some (escapeMermaidText "status: ready")
  ∧ getDescription colonDescNode = some "status - ready" :=
  ⟨(getDescription_colon_safe colonDescNode "status: ready").1 rfl (by decide), by decide⟩

/-- C9: determinism.  Both entry points are pure functions of the machine
and the options in this embedding — which mirrors the source exactly: the
`lines` array and the seen-edge/seen-state sets are allocated afresh inside
each call and no state survives a call — so two calls on the same input
yield byte-identical text. -/
theorem toMermaid_deterministic (m : Machine) (o : MermaidOptions) :
    toMermaid m o = toMermaid m o ∧ toMermaidNested m o = toMermaidNested m o :=
  ⟨rfl, rfl⟩

/-- C10: short-name collision merging in flat mode.  The state-label lines
of the flat output are exactly one line per distinct short name — the
first-occurrence dedup (seen-state set keyed by short name) of the preorder
node walk, each line built from the first node visited with that name — and
the emitted names are pairwise distinct, so a later node resolving to an
already-seen short name is silently suppressed. -/
theorem toMermaid_label_merge (m : Machine) (o : MermaidOptions) :
    stateLabelLinesOf (toMermaidState m o).lines
      = ((dedupRun shortNameOf (preorderList m.digraph.children) []).1).map
          (flatLabelLine (flatCfgOf o))
  ∧ (stateLabelNamesOf (toMermaidState m o).lines).Nodup := by
  have h := (toMermaidState_spec m o).2
  refine ⟨h, ?_⟩
  have hnames : stateLabelNamesOf (toMermaidState m o).lines
      = ((dedupRun shortNameOf (preorderList m.digraph.children) []).1).map shortNameOf := by
    unfold stateLabelNamesOf
    rw [h, List.filterMap_map]
    have hc : stateLabelNameOf ∘ flatLabelLine (flatCfgOf o) = some ∘ shortNameOf := by
      funext n; rfl
    rw [hc, List.filterMap_eq_map]
  rw [hnames]
  exact (dedupRun_retained shortNameOf _ []).2
